import Mathlib

/-!
# yum-repo-server: verification of the repository-engine specification

The repository ships (in the slice under scrutiny) only the integration-test
client `testRepoClient.py`; the server-side engine it exercises — the
repository store, the artifact validator, the link-graph resolver and the
metadata generator — is described by the specification.  Every definition
below whose doc comment starts with `Modelled from the spec:` embeds the
missing server component faithfully from the specification's words; the
HTTP surface and CLI completion codes follow §6 of the specification and
the observable behaviour asserted by the tests.

Bytes are modelled as `List Nat` (each entry one octet).
-/

namespace YumRepo

/-- A raw byte stream (one `Nat` per octet). -/
abbrev Bytes := List Nat

/-- Modelled from the spec: the parsed package identity extracted by the
Artifact Validator — name, version, release, architecture (§4.1). -/
structure PackageIdentity where
  pkgName : String
  version : String
  release : String
  arch : String
deriving DecidableEq, Repr

/-- Modelled from the spec: the destination path of an uploaded package is
derived deterministically from the package identity (name, version, release,
arch), never from the uploaded filename (§3 Artifact). -/
def destinationPath (p : PackageIdentity) : String :=
  p.pkgName ++ "-" ++ p.version ++ "-" ++ p.release ++ "." ++ p.arch ++ ".rpm"

/-- The four lead-magic octets that open a well-formed package. -/
def rpmLeadMagic : Bytes := [237, 171, 238, 219]

/-- Parse one length-prefixed string field from a byte stream. -/
def parseField : Bytes → Option (String × Bytes)
  | [] => none
  | len :: rest =>
    if len ≤ rest.length then
      some (String.mk ((rest.take len).map Char.ofNat), rest.drop len)
    else none

/-- A simple rolling checksum over a byte stream. -/
def checksum (bs : Bytes) : Nat :=
  bs.foldl (fun a b => (a * 31 + b) % 4294967296) 7

/-- Modelled from the spec: the Artifact Validator (§4.1).  It is a pure
function of the input bytes; it checks structural integrity (lead magic,
the four mandatory identity fields present and non-empty, the internal
checksum octet consistent with the payload) and returns the parsed
identity, or rejects the stream (`none` = `CorruptPackage`). -/
def validate (bs : Bytes) : Option PackageIdentity :=
  if bs.take 4 = rpmLeadMagic ∧ bs.all (fun b => b < 256) then
    match parseField (bs.drop 4) with
    | none => none
    | some (n, r1) =>
      match parseField r1 with
      | none => none
      | some (v, r2) =>
        match parseField r2 with
        | none => none
        | some (rel, r3) =>
          match parseField r3 with
          | none => none
          | some (arch, r4) =>
            match r4 with
            | [] => none
            | c :: payload =>
              if c = checksum payload % 256 ∧
                  n ≠ "" ∧ v ≠ "" ∧ rel ≠ "" ∧ arch ≠ "" then
                some ⟨n, v, rel, arch⟩
              else none
  else none

/-- Modelled from the spec: one per-artifact detail record of the metadata
document set (path, size, content checksum) (§4.4). -/
structure DetailRecord where
  path : String
  size : Nat
  sum : Nat
deriving DecidableEq, Repr

/-- Modelled from the spec: the metadata document set — per-artifact detail
records plus an index record carrying the checksums of the details (§3,
§4.4).  No timestamp is included, so the set is a pure function of the
artifact set (§4.4 determinism). -/
structure MetadataSet where
  details : List DetailRecord
  indexSum : Nat
deriving DecidableEq, Repr

/-- Modelled from the spec: the Metadata Generator's document construction —
one detail record per artifact, and an index checksumming the details'
checksums and sizes (§4.4). -/
def buildMetadata (arts : List (String × Bytes)) : MetadataSet :=
  let ds := arts.map (fun a => DetailRecord.mk a.1 a.2.length (checksum a.2))
  ⟨ds, checksum (ds.map (fun d => d.sum) ++ ds.map (fun d => d.size))⟩

/-- Modelled from the spec: a static repository — a set of artifacts keyed
by destination path, plus the (initially absent) metadata document set
(§3). -/
structure StaticRepo where
  artifacts : List (String × Bytes)
  metadata : Option MetadataSet
deriving DecidableEq, Repr

/-- Modelled from the spec: a repository is either static (holding real
artifacts) or virtual (an ordered sequence of links to other repositories
by name) (§3). -/
inductive Repo where
  | static (s : StaticRepo)
  | virt (links : List String)
deriving DecidableEq, Repr

/-- Modelled from the spec: the process-wide repository namespace, a single
map from name to repository shared by static and virtual repositories (§9),
embedded as an association list. -/
abbrev RepoNamespace := List (String × Repo)

/-- Look a repository up by name (first match). -/
def findRepo : RepoNamespace → String → Option Repo
  | [], _ => none
  | (n, r) :: rest, m => if m = n then some r else findRepo rest m

/-- Replace the (first) repository of a given name. -/
def updateRepo : RepoNamespace → String → Repo → RepoNamespace
  | [], _, _ => []
  | (n, r) :: rest, m, r' =>
    if n = m then (n, r') :: rest else (n, r) :: updateRepo rest m r'

/-- Remove the (first) repository of a given name. -/
def removeRepo : RepoNamespace → String → RepoNamespace
  | [], _ => []
  | (n, r) :: rest, m => if n = m then rest else (n, r) :: removeRepo rest m

/-- All repository names, in namespace order. -/
def namesOf (ns : RepoNamespace) : List String := ns.map Prod.fst

/-- Look an artifact up by destination path. -/
def findArtifact : List (String × Bytes) → String → Option Bytes
  | [], _ => none
  | (q, b) :: rest, p => if p = q then some b else findArtifact rest p

/-- Remove every artifact stored under a destination path. -/
def removeArtifactPath : List (String × Bytes) → String → List (String × Bytes)
  | [], _ => []
  | (q, b) :: rest, p =>
    if q = p then removeArtifactPath rest p else (q, b) :: removeArtifactPath rest p

/-- The links leaving a repository name (empty for static or absent repos). -/
def linkTargets (ns : RepoNamespace) (n : String) : List String :=
  match findRepo ns n with
  | some (Repo.virt ls) => ls
  | _ => []

/-- The link graph: `edge ns a b` holds when repository `a` links directly
to repository `b`. -/
def edge (ns : RepoNamespace) (a b : String) : Prop :=
  b ∈ linkTargets ns a

/-- Fuel-bounded reachability in the link graph (at least one edge, at most
`fuel` edges). -/
def reachableFuel (ns : RepoNamespace) : Nat → String → String → Bool
  | 0, _, _ => false
  | fuel + 1, a, b =>
    (linkTargets ns a).any (fun t => decide (t = b) || reachableFuel ns fuel t b)

/-- Modelled from the spec: the creation-time cycle check — linking `v` to
`w` closes a cycle exactly when `w` already reaches `v` (or is `v`) (§3
Link invariant, §4.2). -/
def wouldCycle (ns : RepoNamespace) (v w : String) : Bool :=
  decide (v = w) || reachableFuel ns (ns.length + 1) w v

/-- Executable acyclicity check over the whole namespace. -/
def acyclicCheck (ns : RepoNamespace) : Bool :=
  (namesOf ns).all (fun n => !reachableFuel ns (ns.length + 1) n n)

/-- The link graph has no directed cycle (§3 Link invariant). -/
def Acyclic (ns : RepoNamespace) : Prop :=
  ∀ n, ¬ Relation.TransGen (edge ns) n n

/-- Modelled from the spec: the caller-facing outcome taxonomy of the
engine's operations (§7). -/
inductive RepoResult where
  | ok
  | notFound
  | alreadyExists
  | corruptPackage
  | cycleDetected
  | notStatic
  | notVirtual
  | artifactNotFound
deriving DecidableEq, Repr

/-- Modelled from the spec: CLI completion codes — 0 for success, the
distinct code 1 for an invalid/corrupt package, and other non-zero codes
for the remaining failures, each distinguishable (§6, §7). -/
def exitCode : RepoResult → Nat
  | RepoResult.ok => 0
  | RepoResult.corruptPackage => 1
  | RepoResult.notFound => 2
  | RepoResult.alreadyExists => 3
  | RepoResult.cycleDetected => 4
  | RepoResult.notStatic => 5
  | RepoResult.notVirtual => 6
  | RepoResult.artifactNotFound => 7

/-- Modelled from the spec: `createStatic` — the name must not already
exist in the combined static+virtual namespace (§4.2). -/
def create (ns : RepoNamespace) (name : String) : RepoNamespace × RepoResult :=
  match findRepo ns name with
  | some _ => (ns, RepoResult.alreadyExists)
  | none => ((name, Repo.static ⟨[], none⟩) :: ns, RepoResult.ok)

/-- Modelled from the spec: the `uploadto` operation — validate the bytes,
derive the destination path from the parsed identity, and insert or
atomically overwrite the artifact; a corrupt package writes nothing
(§4.1, §4.2 `putArtifact`). -/
def uploadto (ns : RepoNamespace) (name : String) (bs : Bytes) :
    RepoNamespace × RepoResult :=
  match findRepo ns name with
  | none => (ns, RepoResult.notFound)
  | some (Repo.virt _) => (ns, RepoResult.notStatic)
  | some (Repo.static s) =>
    match validate bs with
    | none => (ns, RepoResult.corruptPackage)
    | some pid =>
      let path := destinationPath pid
      (updateRepo ns name
        (Repo.static ⟨(path, bs) :: removeArtifactPath s.artifacts path, s.metadata⟩),
       RepoResult.ok)

/-- Modelled from the spec: `removeArtifact` / the `deleterpm` command
(§4.2). -/
def deleterpm (ns : RepoNamespace) (name path : String) :
    RepoNamespace × RepoResult :=
  match findRepo ns name with
  | none => (ns, RepoResult.notFound)
  | some (Repo.virt _) => (ns, RepoResult.notStatic)
  | some (Repo.static s) =>
    match findArtifact s.artifacts path with
    | none => (ns, RepoResult.artifactNotFound)
    | some _ =>
      (updateRepo ns name
        (Repo.static ⟨removeArtifactPath s.artifacts path, s.metadata⟩),
       RepoResult.ok)

/-- Modelled from the spec: `generate` — synchronously rebuild the metadata
document set from the current artifact set and publish it atomically,
replacing the previous set (§4.4). -/
def generatemetadata (ns : RepoNamespace) (name : String) :
    RepoNamespace × RepoResult :=
  match findRepo ns name with
  | none => (ns, RepoResult.notFound)
  | some (Repo.virt _) => (ns, RepoResult.notStatic)
  | some (Repo.static s) =>
    (updateRepo ns name
      (Repo.static ⟨s.artifacts, some (buildMetadata s.artifacts)⟩),
     RepoResult.ok)

/-- Modelled from the spec: `linktostatic` — link a virtual repository to
an existing static repository, creating the virtual repository when it
does not yet exist, and rejecting any link that would close a cycle with
the namespace left unchanged (§4.2, §6, and the test client's use of
`linktostatic` on a fresh name). -/
def linktostatic (ns : RepoNamespace) (v s : String) :
    RepoNamespace × RepoResult :=
  match findRepo ns s with
  | none => (ns, RepoResult.notFound)
  | some (Repo.virt _) => (ns, RepoResult.notStatic)
  | some (Repo.static _) =>
    match findRepo ns v with
    | some (Repo.static _) => (ns, RepoResult.notVirtual)
    | some (Repo.virt ls) =>
      if wouldCycle ns v s then (ns, RepoResult.cycleDetected)
      else (updateRepo ns v (Repo.virt (ls ++ [s])), RepoResult.ok)
    | none =>
      if wouldCycle ns v s then (ns, RepoResult.cycleDetected)
      else ((v, Repo.virt [s]) :: ns, RepoResult.ok)

/-- Modelled from the spec: `linktovirtual` — link a virtual repository to
an existing virtual repository, creating the linking repository when it
does not yet exist, and rejecting any link that would close a cycle with
the namespace left unchanged (§4.2, §6). -/
def linktovirtual (ns : RepoNamespace) (v w : String) :
    RepoNamespace × RepoResult :=
  match findRepo ns w with
  | none => (ns, RepoResult.notFound)
  | some (Repo.static _) => (ns, RepoResult.notVirtual)
  | some (Repo.virt _) =>
    match findRepo ns v with
    | some (Repo.static _) => (ns, RepoResult.notVirtual)
    | some (Repo.virt ls) =>
      if wouldCycle ns v w then (ns, RepoResult.cycleDetected)
      else (updateRepo ns v (Repo.virt (ls ++ [w])), RepoResult.ok)
    | none =>
      if wouldCycle ns v w then (ns, RepoResult.cycleDetected)
      else ((v, Repo.virt [w]) :: ns, RepoResult.ok)

/-- Modelled from the spec: `deleteVirtual` — removes only the virtual
repository's own record and its link list; never touches the repositories
it links to (§4.2). -/
def deletevirtual (ns : RepoNamespace) (v : String) :
    RepoNamespace × RepoResult :=
  match findRepo ns v with
  | some (Repo.virt _) => (removeRepo ns v, RepoResult.ok)
  | _ => (ns, RepoResult.notFound)

/-- Modelled from the spec: the command surface of the client, one
constructor per CLI operation (§6). -/
inductive Command where
  | create (name : String)
  | uploadto (name : String) (bs : Bytes)
  | deleterpm (name path : String)
  | generatemetadata (name : String)
  | linktostatic (v s : String)
  | linktovirtual (v w : String)
  | deletevirtual (v : String)
deriving DecidableEq, Repr

/-- Dispatch one command against the namespace. -/
def applyCommand (ns : RepoNamespace) : Command → RepoNamespace × RepoResult
  | Command.create n => create ns n
  | Command.uploadto n bs => uploadto ns n bs
  | Command.deleterpm n p => deleterpm ns n p
  | Command.generatemetadata n => generatemetadata ns n
  | Command.linktostatic v s => linktostatic ns v s
  | Command.linktovirtual v w => linktovirtual ns v w
  | Command.deletevirtual v => deletevirtual ns v

/-- Modelled from the spec: the Link Graph Resolver — depth-first traversal
of the link list in declared order, first match by path winning; the fuel
plays the role of the visited bound guaranteeing termination (§4.3). -/
def resolveIn (ns : RepoNamespace) : Nat → String → String → Option (String × Bytes)
  | 0, _, _ => none
  | fuel + 1, repo, path =>
    match findRepo ns repo with
    | some (Repo.static s) => (findArtifact s.artifacts path).map (fun b => (repo, b))
    | some (Repo.virt links) => links.findSome? (fun l => resolveIn ns fuel l path)
    | none => none

/-- Modelled from the spec: `resolve(virtualRepoName, path)` with the fuel
bound set from the namespace size (§4.3). -/
def resolve (ns : RepoNamespace) (name path : String) : Option (String × Bytes) :=
  resolveIn ns (ns.length + 1) name path

/-- Modelled from the spec: `GET /repo/{name}/` — 200 when a static
repository of that name exists, 404 otherwise (§6). -/
def httpGetRepoRoot (ns : RepoNamespace) (name : String) : Nat :=
  match findRepo ns name with
  | some (Repo.static _) => 200
  | _ => 404

/-- Modelled from the spec: `GET /repo/{name}/{path}` — the artifact bytes
when present (§6). -/
def httpGetArtifact (ns : RepoNamespace) (name path : String) : Option Bytes :=
  match findRepo ns name with
  | some (Repo.static s) => findArtifact s.artifacts path
  | _ => none

/-- Modelled from the spec: `GET /repo/{name}/repodata/repomd.xml` — the
metadata index when it has been generated (§6). -/
def httpGetRepomd (ns : RepoNamespace) (name : String) : Option MetadataSet :=
  match findRepo ns name with
  | some (Repo.static s) => s.metadata
  | _ => none

/-- HTTP status of an optional body: 200 when present, 404 otherwise. -/
def statusOf {α : Type} : Option α → Nat
  | some _ => 200
  | none => 404

/-- Modelled from the spec: `GET /repo/virtual/{name}/` — 200 when a
virtual repository of that name exists, 404 otherwise (§6). -/
def httpGetVirtualRoot (ns : RepoNamespace) (name : String) : Nat :=
  match findRepo ns name with
  | some (Repo.virt _) => 200
  | _ => 404

/-- Modelled from the spec: `GET /repo/virtual/{name}/{path}` — resolves
through the Link Graph Resolver (§6). -/
def httpGetVirtualArtifact (ns : RepoNamespace) (name path : String) : Option Bytes :=
  match findRepo ns name with
  | some (Repo.virt _) => (resolve ns name path).map (fun r => r.2)
  | _ => none

/-! ## Association-list lemmas about the namespace and artifact stores -/

theorem findRepo_some_mem_names {ns : RepoNamespace} {n : String} {r : Repo}
    (h : findRepo ns n = some r) : n ∈ namesOf ns := by
  induction ns with
  | nil => simp [findRepo] at h
  | cons hd tl ih =>
    obtain ⟨m, r0⟩ := hd
    by_cases hm : n = m
    · simp [namesOf, hm]
    · simp only [findRepo, if_neg hm] at h
      exact List.mem_cons_of_mem _ (ih h)

theorem findRepo_none_not_mem {ns : RepoNamespace} {n : String}
    (h : findRepo ns n = none) : n ∉ namesOf ns := by
  induction ns with
  | nil => simp [namesOf]
  | cons hd tl ih =>
    obtain ⟨m, r0⟩ := hd
    by_cases hm : n = m
    · simp [findRepo, hm] at h
    · simp only [findRepo, if_neg hm] at h
      simp only [namesOf, List.map_cons, List.mem_cons]
      rintro (h' | h')
      · exact hm h'
      · exact ih h h'

theorem findRepo_eq_none_of_not_mem {ns : RepoNamespace} {n : String}
    (h : n ∉ namesOf ns) : findRepo ns n = none := by
  induction ns with
  | nil => rfl
  | cons hd tl ih =>
    obtain ⟨m, r0⟩ := hd
    simp only [namesOf, List.map_cons, List.mem_cons, not_or] at h
    simp only [findRepo, if_neg h.1]
    exact ih h.2

theorem namesOf_updateRepo (ns : RepoNamespace) (n : String) (r' : Repo) :
    namesOf (updateRepo ns n r') = namesOf ns := by
  induction ns with
  | nil => rfl
  | cons hd tl ih =>
    obtain ⟨m, r0⟩ := hd
    by_cases hm : m = n
    · simp [updateRepo, hm, namesOf]
    · simp [updateRepo, hm, namesOf] at ih ⊢
      exact ih

theorem length_updateRepo (ns : RepoNamespace) (n : String) (r' : Repo) :
    (updateRepo ns n r').length = ns.length := by
  have h := congrArg List.length (namesOf_updateRepo ns n r')
  simpa [namesOf] using h

theorem findRepo_updateRepo_self {ns : RepoNamespace} {n : String} {r0 : Repo}
    (h : findRepo ns n = some r0) (r' : Repo) :
    findRepo (updateRepo ns n r') n = some r' := by
  induction ns with
  | nil => simp [findRepo] at h
  | cons hd tl ih =>
    obtain ⟨m, r1⟩ := hd
    by_cases hm : m = n
    · simp [updateRepo, hm, findRepo]
    · have hm' : ¬ n = m := fun hc => hm hc.symm
      simp only [findRepo, if_neg hm'] at h
      simp only [updateRepo, if_neg hm, findRepo, if_neg hm']
      exact ih h

theorem findRepo_updateRepo_ne (ns : RepoNamespace) {n m : String}
    (h : m ≠ n) (r' : Repo) :
    findRepo (updateRepo ns n r') m = findRepo ns m := by
  induction ns with
  | nil => rfl
  | cons hd tl ih =>
    obtain ⟨k, r0⟩ := hd
    by_cases hk : k = n
    · subst hk
      simp [updateRepo, findRepo, if_neg h]
    · by_cases hmk : m = k
      · simp [updateRepo, hk, findRepo, hmk]
      · simp only [updateRepo, if_neg hk, findRepo, if_neg hmk]
        exact ih

theorem findRepo_removeRepo_ne (ns : RepoNamespace) {v m : String}
    (h : m ≠ v) : findRepo (removeRepo ns v) m = findRepo ns m := by
  induction ns with
  | nil => rfl
  | cons hd tl ih =>
    obtain ⟨k, r0⟩ := hd
    by_cases hk : k = v
    · subst hk
      simp [removeRepo, findRepo, if_neg h]
    · by_cases hmk : m = k
      · simp [removeRepo, hk, findRepo, hmk]
      · simp only [removeRepo, if_neg hk, findRepo, if_neg hmk]
        exact ih

theorem namesOf_removeRepo_sublist (ns : RepoNamespace) (v : String) :
    List.Sublist (namesOf (removeRepo ns v)) (namesOf ns) := by
  induction ns with
  | nil => simp [removeRepo, namesOf]
  | cons hd tl ih =>
    obtain ⟨k, r0⟩ := hd
    by_cases hk : k = v
    · simp only [removeRepo, if_pos hk, namesOf, List.map_cons]
      exact List.sublist_cons_of_sublist _ (List.Sublist.refl _)
    · simp only [removeRepo, if_neg hk, namesOf, List.map_cons]
      exact List.Sublist.cons₂ _ ih

theorem findRepo_removeRepo_self {ns : RepoNamespace} {v : String}
    (hnd : (namesOf ns).Nodup) : findRepo (removeRepo ns v) v = none := by
  induction ns with
  | nil => rfl
  | cons hd tl ih =>
    obtain ⟨k, r0⟩ := hd
    simp only [namesOf, List.map_cons, List.nodup_cons] at hnd
    by_cases hk : k = v
    · subst hk
      simp only [removeRepo, if_pos rfl]
      exact findRepo_eq_none_of_not_mem hnd.1
    · have hv : ¬ v = k := fun hc => hk hc.symm
      simp only [removeRepo, if_neg hk, findRepo, if_neg hv]
      exact ih hnd.2

theorem findArtifact_removeArtifactPath_self (l : List (String × Bytes)) (p : String) :
    findArtifact (removeArtifactPath l p) p = none := by
  induction l with
  | nil => rfl
  | cons hd tl ih =>
    obtain ⟨q, b⟩ := hd
    by_cases hq : q = p
    · simp only [removeArtifactPath, if_pos hq]
      exact ih
    · have hp : ¬ p = q := fun hc => hq hc.symm
      simp only [removeArtifactPath, if_neg hq, findArtifact, if_neg hp]
      exact ih

theorem findArtifact_removeArtifactPath_ne (l : List (String × Bytes)) {p q : String}
    (h : q ≠ p) : findArtifact (removeArtifactPath l p) q = findArtifact l q := by
  induction l with
  | nil => rfl
  | cons hd tl ih =>
    obtain ⟨k, b⟩ := hd
    by_cases hk : k = p
    · subst hk
      simp only [removeArtifactPath, if_pos rfl, findArtifact, if_neg h]
      exact ih
    · by_cases hqk : q = k
      · simp [removeArtifactPath, hk, findArtifact, hqk]
      · simp only [removeArtifactPath, if_neg hk, findArtifact, if_neg hqk]
        exact ih

theorem linkTargets_of_none {ns : RepoNamespace} {n : String}
    (h : findRepo ns n = none) : linkTargets ns n = [] := by
  unfold linkTargets
  rw [h]

theorem linkTargets_of_static {ns : RepoNamespace} {n : String} {s : StaticRepo}
    (h : findRepo ns n = some (Repo.static s)) : linkTargets ns n = [] := by
  unfold linkTargets
  rw [h]

theorem linkTargets_of_virt {ns : RepoNamespace} {n : String} {ls : List String}
    (h : findRepo ns n = some (Repo.virt ls)) : linkTargets ns n = ls := by
  unfold linkTargets
  rw [h]

theorem edge_mem_names {ns : RepoNamespace} {a b : String}
    (h : edge ns a b) : a ∈ namesOf ns := by
  unfold edge linkTargets at h
  cases hf : findRepo ns a with
  | none => rw [hf] at h; simp at h
  | some r => exact findRepo_some_mem_names hf

/-! ## Paths in the link graph and correctness of the reachability check -/

/-- A concrete edge path: `pathFrom ns a l b` holds when the link graph walks
from `a` through the intermediate names `l` to `b`. -/
def pathFrom (ns : RepoNamespace) : String → List String → String → Prop
  | a, [], b => edge ns a b
  | a, x :: l, b => edge ns a x ∧ pathFrom ns x l b

theorem pathFrom_append_edge {ns : RepoNamespace} {a b c : String} {l : List String}
    (hp : pathFrom ns a l b) (he : edge ns b c) : pathFrom ns a (l ++ [b]) c := by
  induction l generalizing a with
  | nil => exact ⟨hp, he⟩
  | cons x l ih => exact ⟨hp.1, ih hp.2⟩

theorem transGen_of_pathFrom {ns : RepoNamespace} {a b : String} {l : List String}
    (h : pathFrom ns a l b) : Relation.TransGen (edge ns) a b := by
  induction l generalizing a with
  | nil => exact Relation.TransGen.single h
  | cons x l ih => exact Relation.TransGen.head h.1 (ih h.2)

theorem pathFrom_of_transGen {ns : RepoNamespace} {a b : String}
    (h : Relation.TransGen (edge ns) a b) : ∃ l, pathFrom ns a l b := by
  induction h with
  | single h1 => exact ⟨[], h1⟩
  | tail h1 h2 ih =>
    obtain ⟨l, hl⟩ := ih
    exact ⟨_, pathFrom_append_edge hl h2⟩

theorem pathFrom_suffix {ns : RepoNamespace} {b x : String} {r : List String} :
    ∀ (q : List String) (c : String), pathFrom ns c (q ++ x :: r) b → pathFrom ns x r b := by
  intro q
  induction q with
  | nil => intro c h; exact h.2
  | cons y q ih => intro c h; exact ih y h.2

theorem pathFrom_cutdup {ns : RepoNamespace} {b x : String} :
    ∀ (p q r : List String) (a : String),
      pathFrom ns a (p ++ x :: q ++ x :: r) b → pathFrom ns a (p ++ x :: r) b := by
  intro p
  induction p with
  | nil =>
    intro q r a h
    exact ⟨h.1, pathFrom_suffix q x h.2⟩
  | cons y p ih =>
    intro q r a h
    exact ⟨h.1, ih q r y h.2⟩

theorem sublist_pair_split {x : String} : ∀ (m : List String),
    List.Sublist [x, x] m → ∃ m1 m2 m3, m = m1 ++ x :: m2 ++ x :: m3 := by
  intro m
  induction m with
  | nil => intro h; exact absurd h (by simp)
  | cons y m ih =>
    intro h
    cases h with
    | cons _ h2 =>
      obtain ⟨m1, m2, m3, rfl⟩ := ih h2
      exact ⟨y :: m1, m2, m3, rfl⟩
    | cons₂ _ h2 =>
      obtain ⟨s, t, rfl⟩ := List.append_of_mem (List.singleton_sublist.mp h2)
      exact ⟨[], s, t, rfl⟩

theorem pathFrom_mem_names {ns : RepoNamespace} {b : String} :
    ∀ (l : List String) (a : String), pathFrom ns a l b →
      ∀ x ∈ a :: l, x ∈ namesOf ns := by
  intro l
  induction l with
  | nil =>
    intro a h x hx
    have : x = a := by simpa using hx
    subst this
    exact edge_mem_names h
  | cons y l ih =>
    intro a h x hx
    rcases List.mem_cons.mp hx with rfl | hx'
    · exact edge_mem_names h.1
    · exact ih y h.2 x hx'

theorem pathFrom_shorten {ns : RepoNamespace} {b : String} :
    ∀ (n : Nat) (l : List String) (a : String), l.length ≤ n → pathFrom ns a l b →
      ∃ l', pathFrom ns a l' b ∧ (a :: l').Nodup := by
  intro n
  induction n with
  | zero =>
    intro l a hlen h
    have hl : l = [] := List.length_eq_zero.mp (Nat.le_zero.mp hlen)
    subst hl
    exact ⟨[], h, by simp⟩
  | succ n ih =>
    intro l a hlen h
    by_cases hnd : (a :: l).Nodup
    · exact ⟨l, h, hnd⟩
    · rw [List.nodup_iff_sublist] at hnd
      push_neg at hnd
      obtain ⟨x, hx⟩ := hnd
      obtain ⟨m1, m2, m3, hm⟩ := sublist_pair_split _ hx
      cases m1 with
      | nil =>
        simp only [List.nil_append] at hm
        injection hm with ha hl
        subst ha
        subst hl
        have h2 : pathFrom ns a m3 b := pathFrom_suffix m2 a h
        have hlen2 : m3.length ≤ n := by
          simp [List.length_append] at hlen
          omega
        exact ih m3 a hlen2 h2
      | cons y m1' =>
        injection hm with ha hl
        subst ha
        subst hl
        have h2 : pathFrom ns a (m1' ++ x :: m3) b := pathFrom_cutdup m1' m2 m3 a h
        have hlen2 : (m1' ++ x :: m3).length ≤ n := by
          simp [List.length_append] at hlen ⊢
          omega
        exact ih _ a hlen2 h2

theorem transGen_of_reachableFuel {ns : RepoNamespace} {b : String} :
    ∀ (fuel : Nat) (a : String), reachableFuel ns fuel a b = true →
      Relation.TransGen (edge ns) a b := by
  intro fuel
  induction fuel with
  | zero => intro a h; simp [reachableFuel] at h
  | succ fuel ih =>
    intro a h
    simp only [reachableFuel, List.any_eq_true] at h
    obtain ⟨t, ht, hcase⟩ := h
    rw [Bool.or_eq_true] at hcase
    rcases hcase with h1 | h2
    · have : t = b := of_decide_eq_true h1
      subst this
      exact Relation.TransGen.single ht
    · exact Relation.TransGen.head ht (ih t h2)

theorem reachableFuel_of_pathFrom {ns : RepoNamespace} {b : String} :
    ∀ (l : List String) (a : String) (fuel : Nat),
      pathFrom ns a l b → l.length < fuel → reachableFuel ns fuel a b = true := by
  intro l
  induction l with
  | nil =>
    intro a fuel h hlt
    cases fuel with
    | zero => exact absurd hlt (by simp)
    | succ fuel =>
      simp only [reachableFuel, List.any_eq_true]
      exact ⟨b, h, by simp⟩
  | cons x l ih =>
    intro a fuel h hlt
    cases fuel with
    | zero => exact absurd hlt (by simp)
    | succ fuel =>
      simp only [reachableFuel, List.any_eq_true]
      refine ⟨x, h.1, ?_⟩
      rw [Bool.or_eq_true]
      refine Or.inr (ih x fuel h.2 ?_)
      simpa using Nat.lt_of_succ_lt_succ hlt

theorem reachable_iff {ns : RepoNamespace} {a b : String} :
    reachableFuel ns (ns.length + 1) a b = true ↔ Relation.TransGen (edge ns) a b := by
  constructor
  · exact transGen_of_reachableFuel _ a
  · intro h
    obtain ⟨l, hl⟩ := pathFrom_of_transGen h
    obtain ⟨l', hl', hnd⟩ := pathFrom_shorten l.length l a (le_refl _) hl
    have hsub : (a :: l') ⊆ namesOf ns := fun x hx => pathFrom_mem_names l' a hl' x hx
    have hlen : (a :: l').length ≤ (namesOf ns).length :=
      (List.Nodup.subperm hnd hsub).length_le
    have hns : (namesOf ns).length = ns.length := by simp [namesOf]
    refine reachableFuel_of_pathFrom l' a _ hl' ?_
    simp only [List.length_cons] at hlen
    omega

theorem not_transGen_of_check {ns : RepoNamespace} {a b : String}
    (h : reachableFuel ns (ns.length + 1) a b = false) :
    ¬ Relation.TransGen (edge ns) a b := by
  intro hc
  have := reachable_iff.mpr hc
  simp [h] at this

theorem acyclic_of_check {ns : RepoNamespace} (h : acyclicCheck ns = true) :
    Acyclic ns := by
  intro n hn
  obtain ⟨l, hl⟩ := pathFrom_of_transGen hn
  have hmem : n ∈ namesOf ns := pathFrom_mem_names l n hl n (List.mem_cons_self _ _)
  unfold acyclicCheck at h
  rw [List.all_eq_true] at h
  have := h n hmem
  simp only [Bool.not_eq_true'] at this
  exact not_transGen_of_check this hn

theorem acyclic_of_edge_imp {ns ns' : RepoNamespace}
    (h : ∀ a b, edge ns' a b → edge ns a b) (hac : Acyclic ns) : Acyclic ns' :=
  fun n hn => hac n (Relation.TransGen.mono (fun a b hab => h a b hab) hn)

/-! ## Adding a single link edge: decomposition of cycles -/

theorem transGen_union_single {α : Type} {R R' : α → α → Prop} {v w : α}
    (hsub : ∀ a b, R' a b → R a b ∨ (a = v ∧ b = w)) :
    ∀ {x y : α}, Relation.TransGen R' x y →
      Relation.TransGen R x y ∨
        (Relation.ReflTransGen R' x v ∧ Relation.ReflTransGen R w y) := by
  intro x y h
  induction h with
  | single h1 =>
    rcases hsub _ _ h1 with h2 | ⟨rfl, rfl⟩
    · exact Or.inl (Relation.TransGen.single h2)
    · exact Or.inr ⟨Relation.ReflTransGen.refl, Relation.ReflTransGen.refl⟩
  | tail h1 h2 ih =>
    rcases hsub _ _ h2 with h3 | ⟨rfl, rfl⟩
    · rcases ih with ih1 | ⟨p1, p2⟩
      · exact Or.inl (Relation.TransGen.tail ih1 h3)
      · exact Or.inr ⟨p1, Relation.ReflTransGen.tail p2 h3⟩
    · exact Or.inr ⟨Relation.TransGen.to_reflTransGen h1, Relation.ReflTransGen.refl⟩

theorem reflTransGen_union_single_to_src {α : Type} {R R' : α → α → Prop} {v w : α}
    (hsub : ∀ a b, R' a b → R a b ∨ (a = v ∧ b = w)) :
    ∀ {x : α}, Relation.ReflTransGen R' x v → Relation.ReflTransGen R x v := by
  intro x h
  induction h using Relation.ReflTransGen.head_induction_on with
  | refl => exact Relation.ReflTransGen.refl
  | head h1 h2 ih =>
    rcases hsub _ _ h1 with h3 | ⟨rfl, rfl⟩
    · exact Relation.ReflTransGen.head h3 ih
    · exact Relation.ReflTransGen.refl

theorem acyclic_add_edge {ns ns' : RepoNamespace} {v w : String}
    (hac : Acyclic ns)
    (hEdge : ∀ a b, edge ns' a b ↔ edge ns a b ∨ (a = v ∧ b = w))
    (hvw : v ≠ w) (hwv : ¬ Relation.TransGen (edge ns) w v) : Acyclic ns' := by
  intro x hx
  have hsub : ∀ a b, edge ns' a b → edge ns a b ∨ (a = v ∧ b = w) :=
    fun a b h => (hEdge a b).mp h
  rcases transGen_union_single hsub hx with h1 | ⟨p1, p2⟩
  · exact hac x h1
  · have p1' := reflTransGen_union_single_to_src hsub p1
    have hwv' : Relation.ReflTransGen (edge ns) w v := Relation.ReflTransGen.trans p2 p1'
    rcases Relation.reflTransGen_iff_eq_or_transGen.mp hwv' with h2 | h2
    · exact hvw h2
    · exact hwv h2

/-! ## How each operation transforms the link graph -/

theorem findRepo_cons_self (n : String) (r : Repo) (ns : RepoNamespace) :
    findRepo ((n, r) :: ns) n = some r := by
  simp [findRepo]

theorem findRepo_cons_ne {a n : String} (r : Repo) (ns : RepoNamespace) (h : a ≠ n) :
    findRepo ((n, r) :: ns) a = findRepo ns a := by
  simp [findRepo, h]

theorem linkTargets_update_ne {ns : RepoNamespace} {a n : String} (h : a ≠ n) (r' : Repo) :
    linkTargets (updateRepo ns n r') a = linkTargets ns a := by
  unfold linkTargets
  rw [findRepo_updateRepo_ne ns h r']

theorem linkTargets_cons_ne {ns : RepoNamespace} {a n : String} (h : a ≠ n) (r : Repo) :
    linkTargets ((n, r) :: ns) a = linkTargets ns a := by
  unfold linkTargets
  rw [findRepo_cons_ne r ns h]

theorem edge_create_iff {ns : RepoNamespace} {n : String} {s : StaticRepo}
    (hn : findRepo ns n = none) (a b : String) :
    edge ((n, Repo.static s) :: ns) a b ↔ edge ns a b := by
  unfold edge
  by_cases ha : a = n
  · subst ha
    rw [linkTargets_of_static (findRepo_cons_self a (Repo.static s) ns),
        linkTargets_of_none hn]
  · rw [linkTargets_cons_ne ha]

theorem edge_linkNew_iff {ns : RepoNamespace} {v w : String}
    (hv : findRepo ns v = none) (a b : String) :
    edge ((v, Repo.virt [w]) :: ns) a b ↔ edge ns a b ∨ (a = v ∧ b = w) := by
  unfold edge
  by_cases ha : a = v
  · subst ha
    rw [linkTargets_of_virt (findRepo_cons_self a (Repo.virt [w]) ns),
        linkTargets_of_none hv]
    simp
  · rw [linkTargets_cons_ne ha]
    simp [ha]

theorem edge_update_static_iff {ns : RepoNamespace} {n : String} {s s' : StaticRepo}
    (h : findRepo ns n = some (Repo.static s)) (a b : String) :
    edge (updateRepo ns n (Repo.static s')) a b ↔ edge ns a b := by
  unfold edge
  by_cases ha : a = n
  · subst ha
    rw [linkTargets_of_static (findRepo_updateRepo_self h (Repo.static s')),
        linkTargets_of_static h]
  · rw [linkTargets_update_ne ha]

theorem edge_update_virt_append_iff {ns : RepoNamespace} {v w : String} {ls : List String}
    (h : findRepo ns v = some (Repo.virt ls)) (a b : String) :
    edge (updateRepo ns v (Repo.virt (ls ++ [w]))) a b ↔ edge ns a b ∨ (a = v ∧ b = w) := by
  unfold edge
  by_cases ha : a = v
  · subst ha
    rw [linkTargets_of_virt (findRepo_updateRepo_self h (Repo.virt (ls ++ [w]))),
        linkTargets_of_virt h]
    simp
  · rw [linkTargets_update_ne ha]
    simp [ha]

theorem edge_removeRepo_imp {ns : RepoNamespace} {v : String}
    (hnd : (namesOf ns).Nodup) (a b : String) :
    edge (removeRepo ns v) a b → edge ns a b := by
  unfold edge
  by_cases ha : a = v
  · subst ha
    rw [linkTargets_of_none (findRepo_removeRepo_self hnd)]
    simp
  · unfold linkTargets
    rw [findRepo_removeRepo_ne ns ha]
    exact id

theorem wouldCycle_false_elim {ns : RepoNamespace} {v w : String}
    (h : wouldCycle ns v w = false) :
    v ≠ w ∧ ¬ Relation.TransGen (edge ns) w v := by
  unfold wouldCycle at h
  rw [Bool.or_eq_false_iff] at h
  exact ⟨of_decide_eq_false h.1, not_transGen_of_check h.2⟩

theorem wouldCycle_true_of {ns : RepoNamespace} {v w : String}
    (h : v = w ∨ Relation.TransGen (edge ns) w v) :
    wouldCycle ns v w = true := by
  unfold wouldCycle
  rcases h with rfl | h
  · simp
  · rw [Bool.or_eq_true]
    exact Or.inr (reachable_iff.mpr h)

/-- Every command preserves the namespace invariant: unique names and an
acyclic link graph. -/
theorem inv_applyCommand (ns : RepoNamespace) (hnd : (namesOf ns).Nodup)
    (hac : Acyclic ns) (c : Command) :
    (namesOf (applyCommand ns c).1).Nodup ∧ Acyclic (applyCommand ns c).1 := by
  cases c with
  | create n =>
    cases hf : findRepo ns n with
    | some r => simp only [applyCommand, create, hf]; exact ⟨hnd, hac⟩
    | none =>
      simp only [applyCommand, create, hf]
      constructor
      · simp only [namesOf, List.map_cons]
        exact List.nodup_cons.mpr ⟨findRepo_none_not_mem hf, hnd⟩
      · exact acyclic_of_edge_imp (fun a b h => (edge_create_iff hf a b).mp h) hac
  | uploadto n bs =>
    cases hf : findRepo ns n with
    | none => simp only [applyCommand, uploadto, hf]; exact ⟨hnd, hac⟩
    | some r =>
      cases r with
      | virt ls => simp only [applyCommand, uploadto, hf]; exact ⟨hnd, hac⟩
      | static s =>
        cases hv : validate bs with
        | none => simp only [applyCommand, uploadto, hf, hv]; exact ⟨hnd, hac⟩
        | some pid =>
          simp only [applyCommand, uploadto, hf, hv]
          refine ⟨by rw [namesOf_updateRepo]; exact hnd, ?_⟩
          exact acyclic_of_edge_imp (fun a b h => (edge_update_static_iff hf a b).mp h) hac
  | deleterpm n p =>
    cases hf : findRepo ns n with
    | none => simp only [applyCommand, deleterpm, hf]; exact ⟨hnd, hac⟩
    | some r =>
      cases r with
      | virt ls => simp only [applyCommand, deleterpm, hf]; exact ⟨hnd, hac⟩
      | static s =>
        cases ha : findArtifact s.artifacts p with
        | none => simp only [applyCommand, deleterpm, hf, ha]; exact ⟨hnd, hac⟩
        | some b =>
          simp only [applyCommand, deleterpm, hf, ha]
          refine ⟨by rw [namesOf_updateRepo]; exact hnd, ?_⟩
          exact acyclic_of_edge_imp (fun a b h => (edge_update_static_iff hf a b).mp h) hac
  | generatemetadata n =>
    cases hf : findRepo ns n with
    | none => simp only [applyCommand, generatemetadata, hf]; exact ⟨hnd, hac⟩
    | some r =>
      cases r with
      | virt ls => simp only [applyCommand, generatemetadata, hf]; exact ⟨hnd, hac⟩
      | static s =>
        simp only [applyCommand, generatemetadata, hf]
        refine ⟨by rw [namesOf_updateRepo]; exact hnd, ?_⟩
        exact acyclic_of_edge_imp (fun a b h => (edge_update_static_iff hf a b).mp h) hac
  | linktostatic v s =>
    cases hf : findRepo ns s with
    | none => simp only [applyCommand, linktostatic, hf]; exact ⟨hnd, hac⟩
    | some r =>
      cases r with
      | virt ls => simp only [applyCommand, linktostatic, hf]; exact ⟨hnd, hac⟩
      | static st =>
        cases hv : findRepo ns v with
        | some rv =>
          cases rv with
          | static sv => simp only [applyCommand, linktostatic, hf, hv]; exact ⟨hnd, hac⟩
          | virt ls =>
            cases hcyc : wouldCycle ns v s with
            | true => simp only [applyCommand, linktostatic, hf, hv, hcyc]; exact ⟨hnd, hac⟩
            | false =>
              simp only [applyCommand, linktostatic, hf, hv, hcyc, Bool.false_eq_true,
                if_false]
              obtain ⟨hvw, hwv⟩ := wouldCycle_false_elim hcyc
              refine ⟨by rw [namesOf_updateRepo]; exact hnd, ?_⟩
              exact acyclic_add_edge hac (edge_update_virt_append_iff hv) hvw hwv
        | none =>
          cases hcyc : wouldCycle ns v s with
          | true => simp only [applyCommand, linktostatic, hf, hv, hcyc]; exact ⟨hnd, hac⟩
          | false =>
            simp only [applyCommand, linktostatic, hf, hv, hcyc, Bool.false_eq_true,
              if_false]
            obtain ⟨hvw, hwv⟩ := wouldCycle_false_elim hcyc
            constructor
            · simp only [namesOf, List.map_cons]
              exact List.nodup_cons.mpr ⟨findRepo_none_not_mem hv, hnd⟩
            · exact acyclic_add_edge hac (edge_linkNew_iff hv) hvw hwv
  | linktovirtual v w =>
    cases hf : findRepo ns w with
    | none => simp only [applyCommand, linktovirtual, hf]; exact ⟨hnd, hac⟩
    | some r =>
      cases r with
      | static st => simp only [applyCommand, linktovirtual, hf]; exact ⟨hnd, hac⟩
      | virt lw =>
        cases hv : findRepo ns v with
        | some rv =>
          cases rv with
          | static sv => simp only [applyCommand, linktovirtual, hf, hv]; exact ⟨hnd, hac⟩
          | virt ls =>
            cases hcyc : wouldCycle ns v w with
            | true => simp only [applyCommand, linktovirtual, hf, hv, hcyc]; exact ⟨hnd, hac⟩
            | false =>
              simp only [applyCommand, linktovirtual, hf, hv, hcyc, Bool.false_eq_true,
                if_false]
              obtain ⟨hvw, hwv⟩ := wouldCycle_false_elim hcyc
              refine ⟨by rw [namesOf_updateRepo]; exact hnd, ?_⟩
              exact acyclic_add_edge hac (edge_update_virt_append_iff hv) hvw hwv
        | none =>
          cases hcyc : wouldCycle ns v w with
          | true => simp only [applyCommand, linktovirtual, hf, hv, hcyc]; exact ⟨hnd, hac⟩
          | false =>
            simp only [applyCommand, linktovirtual, hf, hv, hcyc, Bool.false_eq_true,
              if_false]
            obtain ⟨hvw, hwv⟩ := wouldCycle_false_elim hcyc
            constructor
            · simp only [namesOf, List.map_cons]
              exact List.nodup_cons.mpr ⟨findRepo_none_not_mem hv, hnd⟩
            · exact acyclic_add_edge hac (edge_linkNew_iff hv) hvw hwv
  | deletevirtual v =>
    cases hf : findRepo ns v with
    | none => simp only [applyCommand, deletevirtual, hf]; exact ⟨hnd, hac⟩
    | some r =>
      cases r with
      | static s => simp only [applyCommand, deletevirtual, hf]; exact ⟨hnd, hac⟩
      | virt ls =>
        simp only [applyCommand, deletevirtual, hf]
        constructor
        · exact List.Nodup.sublist (namesOf_removeRepo_sublist ns v) hnd
        · exact acyclic_of_edge_imp (edge_removeRepo_imp hnd) hac

/-! ## Resolver lemmas -/

theorem resolveIn_static_step {ns : RepoNamespace} {r path : String} {s : StaticRepo}
    {b : Bytes} (fuel : Nat)
    (hf : findRepo ns r = some (Repo.static s))
    (hb : findArtifact s.artifacts path = some b) :
    resolveIn ns (fuel + 1) r path = some (r, b) := by
  simp [resolveIn, hf, hb]

theorem resolveIn_virt_step {ns : RepoNamespace} {r path : String} {links : List String}
    (fuel : Nat) (hf : findRepo ns r = some (Repo.virt links)) :
    resolveIn ns (fuel + 1) r path = links.findSome? (fun l => resolveIn ns fuel l path) := by
  simp [resolveIn, hf]

/-- Soundness of the depth-first resolver: a successful resolution names a
static repository in the transitive link set of the starting repository, and
returns exactly the artifact stored there. -/
theorem resolveIn_sound {ns : RepoNamespace} {path : String} :
    ∀ (fuel : Nat) (a owner : String) (b : Bytes),
      resolveIn ns fuel a path = some (owner, b) →
      (owner = a ∨ Relation.TransGen (edge ns) a owner) ∧
        ∃ s, findRepo ns owner = some (Repo.static s) ∧
          findArtifact s.artifacts path = some b := by
  intro fuel
  induction fuel with
  | zero => intro a owner b h; simp [resolveIn] at h
  | succ fuel ih =>
    intro a owner b h
    simp only [resolveIn] at h
    cases hf : findRepo ns a with
    | none => rw [hf] at h; simp at h
    | some r =>
      cases r with
      | static s =>
        rw [hf] at h
        rw [Option.map_eq_some'] at h
        obtain ⟨b0, hb0, heq⟩ := h
        injection heq with h1 h2
        subst h1
        subst h2
        exact ⟨Or.inl rfl, s, hf, hb0⟩
      | virt links =>
        rw [hf] at h
        obtain ⟨l, hl, hres⟩ := List.exists_of_findSome?_eq_some h
        obtain ⟨hreach, s, hs, hart⟩ := ih l owner b hres
        have hedge : edge ns a l := by
          rw [edge, linkTargets_of_virt hf]
          exact hl
        refine ⟨?_, s, hs, hart⟩
        rcases hreach with rfl | ht
        · exact Or.inr (Relation.TransGen.single hedge)
        · exact Or.inr (Relation.TransGen.head hedge ht)

theorem reachableFuel_static_src {ns : RepoNamespace} {a : String} {st : StaticRepo}
    (hf : findRepo ns a = some (Repo.static st)) :
    ∀ (fuel : Nat) (b : String), reachableFuel ns fuel a b = false := by
  intro fuel b
  cases fuel with
  | zero => rfl
  | succ fuel => simp [reachableFuel, linkTargets_of_static hf]

/-! ## The claims -/

/-- C1: for a repository name R not previously created, a GET of /repo/R/
returns 404; after createStatic(R) succeeds, the same GET returns 200. -/
theorem claim_C1_create_then_get (ns : RepoNamespace) (R : String)
    (h : findRepo ns R = none) :
    httpGetRepoRoot ns R = 404 ∧
      (create ns R).2 = RepoResult.ok ∧
      httpGetRepoRoot (create ns R).1 R = 200 := by
  refine ⟨?_, ?_, ?_⟩
  · simp [httpGetRepoRoot, h]
  · simp [create, h]
  · simp [create, h, httpGetRepoRoot, findRepo]

/-- C1 witness: the scenario at a concrete fresh name. -/
theorem claim_C1_witness :
    httpGetRepoRoot [] ("repo1") = 404 ∧
      (create [] ("repo1")).2 = RepoResult.ok ∧
      httpGetRepoRoot (create [] ("repo1")).1 ("repo1") = 200 :=
  claim_C1_create_then_get [] ("repo1") (by rfl)

/-- C2: uploading a valid package to an existing static repository makes the
artifact fetchable at the destination path derived from the package identity
(not from any uploaded filename) with byte-identical content, and after
removing that path the same fetch returns not-found. -/
theorem claim_C2_upload_fetch_delete (ns : RepoNamespace) (R : String)
    (s : StaticRepo) (bs : Bytes) (pid : PackageIdentity)
    (hR : findRepo ns R = some (Repo.static s))
    (hv : validate bs = some pid) :
    (uploadto ns R bs).2 = RepoResult.ok ∧
      httpGetArtifact (uploadto ns R bs).1 R (destinationPath pid) = some bs ∧
      statusOf (httpGetArtifact (uploadto ns R bs).1 R (destinationPath pid)) = 200 ∧
      (deleterpm (uploadto ns R bs).1 R (destinationPath pid)).2 = RepoResult.ok ∧
      httpGetArtifact (deleterpm (uploadto ns R bs).1 R (destinationPath pid)).1 R
        (destinationPath pid) = none ∧
      statusOf (httpGetArtifact (deleterpm (uploadto ns R bs).1 R
        (destinationPath pid)).1 R (destinationPath pid)) = 404 := by
  have hup : uploadto ns R bs =
      (updateRepo ns R (Repo.static
        ⟨(destinationPath pid, bs) :: removeArtifactPath s.artifacts (destinationPath pid),
         s.metadata⟩), RepoResult.ok) := by
    simp [uploadto, hR, hv]
  have hfind1 : findRepo (uploadto ns R bs).1 R = some (Repo.static
      ⟨(destinationPath pid, bs) :: removeArtifactPath s.artifacts (destinationPath pid),
       s.metadata⟩) := by
    rw [hup]
    exact findRepo_updateRepo_self hR _
  have hart1 : httpGetArtifact (uploadto ns R bs).1 R (destinationPath pid) = some bs := by
    simp [httpGetArtifact, hfind1, findArtifact]
  have hdel : deleterpm (uploadto ns R bs).1 R (destinationPath pid) =
      (updateRepo (uploadto ns R bs).1 R (Repo.static
        ⟨removeArtifactPath ((destinationPath pid, bs) ::
            removeArtifactPath s.artifacts (destinationPath pid)) (destinationPath pid),
         s.metadata⟩), RepoResult.ok) := by
    simp [deleterpm, hfind1, findArtifact]
  have hfind2 : findRepo (deleterpm (uploadto ns R bs).1 R (destinationPath pid)).1 R =
      some (Repo.static
        ⟨removeArtifactPath ((destinationPath pid, bs) ::
            removeArtifactPath s.artifacts (destinationPath pid)) (destinationPath pid),
         s.metadata⟩) := by
    rw [hdel]
    exact findRepo_updateRepo_self hfind1 _
  have hart2 : httpGetArtifact (deleterpm (uploadto ns R bs).1 R
      (destinationPath pid)).1 R (destinationPath pid) = none := by
    simp only [httpGetArtifact, hfind2]
    exact findArtifact_removeArtifactPath_self _ _
  refine ⟨by rw [hup], hart1, by rw [hart1]; rfl, by rw [hdel], hart2, by rw [hart2]; rfl⟩

/-- A concrete well-formed package byte stream used by witnesses: lead
magic, four length-prefixed identity fields, checksum octet, payload. -/
def samplePkg : Bytes :=
  [237, 171, 238, 219, 1, 97, 1, 49, 1, 50, 1, 120, 222, 5]

/-- A concrete corrupt byte stream (wrong magic). -/
def corruptPkg : Bytes := [1, 2, 3]

/-- C2 witness: the scenario at a concrete repository and package. -/
theorem claim_C2_witness :
    (uploadto (create [] ("repo1")).1 ("repo1") samplePkg).2 = RepoResult.ok ∧
      httpGetArtifact (uploadto (create [] ("repo1")).1 ("repo1") samplePkg).1 ("repo1")
        (destinationPath ⟨"a", "1", "2", "x"⟩) = some samplePkg ∧
      statusOf (httpGetArtifact (uploadto (create [] ("repo1")).1 ("repo1") samplePkg).1
        ("repo1") (destinationPath ⟨"a", "1", "2", "x"⟩)) = 200 ∧
      (deleterpm (uploadto (create [] ("repo1")).1 ("repo1") samplePkg).1 ("repo1")
        (destinationPath ⟨"a", "1", "2", "x"⟩)).2 = RepoResult.ok ∧
      httpGetArtifact (deleterpm (uploadto (create [] ("repo1")).1 ("repo1") samplePkg).1
        ("repo1") (destinationPath ⟨"a", "1", "2", "x"⟩)).1 ("repo1")
        (destinationPath ⟨"a", "1", "2", "x"⟩) = none ∧
      statusOf (httpGetArtifact (deleterpm (uploadto (create [] ("repo1")).1 ("repo1")
        samplePkg).1 ("repo1") (destinationPath ⟨"a", "1", "2", "x"⟩)).1 ("repo1")
        (destinationPath ⟨"a", "1", "2", "x"⟩)) = 404 :=
  claim_C2_upload_fetch_delete (create [] ("repo1")).1 ("repo1") ⟨[], none⟩ samplePkg
    ⟨"a", "1", "2", "x"⟩ (by rfl) (by decide)

/-- C3: uploading a byte stream that is not a well-formed package to an
existing static repository writes nothing (the namespace is unchanged, so no
artifact becomes retrievable) and completes with the distinct completion
code 1, different from success (0) and from repository-not-found (2). -/
theorem claim_C3_invalid_upload (ns : RepoNamespace) (R : String) (s : StaticRepo)
    (bs : Bytes) (hR : findRepo ns R = some (Repo.static s))
    (hv : validate bs = none) :
    uploadto ns R bs = (ns, RepoResult.corruptPackage) ∧
      exitCode (uploadto ns R bs).2 = 1 ∧
      exitCode RepoResult.ok = 0 ∧
      exitCode RepoResult.notFound = 2 ∧
      (∀ name p, httpGetArtifact (uploadto ns R bs).1 name p = httpGetArtifact ns name p) := by
  have h1 : uploadto ns R bs = (ns, RepoResult.corruptPackage) := by
    simp [uploadto, hR, hv]
  exact ⟨h1, by rw [h1]; rfl, rfl, rfl, fun name p => by rw [h1]⟩

/-- C3 witness: the corrupt stream at a concrete repository. -/
theorem claim_C3_witness :
    uploadto (create [] ("repo1")).1 ("repo1") corruptPkg =
        ((create [] ("repo1")).1, RepoResult.corruptPackage) ∧
      exitCode (uploadto (create [] ("repo1")).1 ("repo1") corruptPkg).2 = 1 ∧
      exitCode RepoResult.ok = 0 ∧
      exitCode RepoResult.notFound = 2 ∧
      (∀ name p, httpGetArtifact (uploadto (create [] ("repo1")).1 ("repo1") corruptPkg).1
        name p = httpGetArtifact (create [] ("repo1")).1 name p) :=
  claim_C3_invalid_upload (create [] ("repo1")).1 ("repo1") ⟨[], none⟩ corruptPkg
    (by rfl) (by decide)

theorem generatemetadata_eq_of_static {ns : RepoNamespace} {R : String} {s : StaticRepo}
    (h : findRepo ns R = some (Repo.static s)) :
    generatemetadata ns R =
      (updateRepo ns R (Repo.static ⟨s.artifacts, some (buildMetadata s.artifacts)⟩),
       RepoResult.ok) := by
  unfold generatemetadata
  rw [h]

/-- C4: repository metadata is absent (repomd fetch 404) until the first
generation request — creation leaves it absent and uploads never produce it
as a side effect — and once generate runs on a static repository holding at
least one artifact, the repomd fetch returns 200. -/
theorem claim_C4_metadata_lifecycle (ns : RepoNamespace) (R : String)
    (h : findRepo ns R = none) :
    statusOf (httpGetRepomd (create ns R).1 R) = 404 ∧
      (∀ ns' R' bs, httpGetRepomd (uploadto ns' R' bs).1 R' = httpGetRepomd ns' R') ∧
      (∀ ns' R' s, findRepo ns' R' = some (Repo.static s) → s.metadata = none →
        statusOf (httpGetRepomd ns' R') = 404) ∧
      (∀ ns' R' s, findRepo ns' R' = some (Repo.static s) → s.artifacts ≠ [] →
        (generatemetadata ns' R').2 = RepoResult.ok ∧
          statusOf (httpGetRepomd (generatemetadata ns' R').1 R') = 200) := by
  refine ⟨?_, ?_, ?_, ?_⟩
  · simp [create, h, httpGetRepomd, findRepo, statusOf]
  · intro ns' R' bs
    cases hf : findRepo ns' R' with
    | none => simp [uploadto, hf]
    | some r =>
      cases r with
      | virt ls => simp [uploadto, hf]
      | static s =>
        cases hv : validate bs with
        | none => simp [uploadto, hf, hv]
        | some pid =>
          have hfind : findRepo (uploadto ns' R' bs).1 R' = some (Repo.static
              ⟨(destinationPath pid, bs) ::
                 removeArtifactPath s.artifacts (destinationPath pid), s.metadata⟩) := by
            simp only [uploadto, hf, hv]
            exact findRepo_updateRepo_self hf _
          simp [httpGetRepomd, hfind, hf]
  · intro ns' R' s hf hm
    simp [httpGetRepomd, hf, hm, statusOf]
  · intro ns' R' s hf ha
    have hgen : generatemetadata ns' R' =
        (updateRepo ns' R' (Repo.static ⟨s.artifacts, some (buildMetadata s.artifacts)⟩),
         RepoResult.ok) := by
      simp [generatemetadata, hf]
    have hfind : findRepo (generatemetadata ns' R').1 R' =
        some (Repo.static ⟨s.artifacts, some (buildMetadata s.artifacts)⟩) := by
      rw [hgen]
      exact findRepo_updateRepo_self hf _
    exact ⟨by rw [hgen], by simp [httpGetRepomd, hfind, statusOf]⟩

/-- C4 witness: concrete lifecycle at a fresh repository name. -/
theorem claim_C4_witness :
    statusOf (httpGetRepomd (create [] ("repo1")).1 ("repo1")) = 404 ∧
      statusOf (httpGetRepomd
        (uploadto (create [] ("repo1")).1 ("repo1") samplePkg).1 ("repo1")) = 404 ∧
      (generatemetadata (uploadto (create [] ("repo1")).1 ("repo1") samplePkg).1
        ("repo1")).2 = RepoResult.ok ∧
      statusOf (httpGetRepomd (generatemetadata
        (uploadto (create [] ("repo1")).1 ("repo1") samplePkg).1 ("repo1")).1
        ("repo1")) = 200 := by
  have h := claim_C4_metadata_lifecycle [] ("repo1") (by rfl)
  refine ⟨h.1, ?_, ?_⟩
  · rw [h.2.1 (create [] ("repo1")).1 ("repo1") samplePkg]
    exact h.1
  · exact h.2.2.2 (uploadto (create [] ("repo1")).1 ("repo1") samplePkg).1 ("repo1")
      ⟨[(destinationPath ⟨"a", "1", "2", "x"⟩, samplePkg)], none⟩ (by decide) (by decide)

/-- C8: metadata generation is a deterministic function of the current
artifact set — running generate twice with no intervening mutation yields an
identical document set, and any repository with the same artifact set
generates the same documents. -/
theorem claim_C8_generate_deterministic (ns : RepoNamespace) (R : String)
    (s : StaticRepo) (h : findRepo ns R = some (Repo.static s)) :
    (generatemetadata ns R).2 = RepoResult.ok ∧
      httpGetRepomd (generatemetadata ns R).1 R = some (buildMetadata s.artifacts) ∧
      (generatemetadata (generatemetadata ns R).1 R).2 = RepoResult.ok ∧
      httpGetRepomd (generatemetadata (generatemetadata ns R).1 R).1 R =
        httpGetRepomd (generatemetadata ns R).1 R ∧
      (∀ ns' R' s', findRepo ns' R' = some (Repo.static s') → s'.artifacts = s.artifacts →
        httpGetRepomd (generatemetadata ns' R').1 R' =
          httpGetRepomd (generatemetadata ns R).1 R) := by
  have hgen1 : generatemetadata ns R =
      (updateRepo ns R (Repo.static ⟨s.artifacts, some (buildMetadata s.artifacts)⟩),
       RepoResult.ok) := by
    simp [generatemetadata, h]
  have hfind1 : findRepo (generatemetadata ns R).1 R =
      some (Repo.static ⟨s.artifacts, some (buildMetadata s.artifacts)⟩) := by
    rw [hgen1]
    exact findRepo_updateRepo_self h _
  have hmd1 : httpGetRepomd (generatemetadata ns R).1 R =
      some (buildMetadata s.artifacts) := by
    simp [httpGetRepomd, hfind1]
  have hgen2 : generatemetadata (generatemetadata ns R).1 R =
      (updateRepo (generatemetadata ns R).1 R
        (Repo.static ⟨s.artifacts, some (buildMetadata s.artifacts)⟩),
       RepoResult.ok) :=
    generatemetadata_eq_of_static (s := ⟨s.artifacts, some (buildMetadata s.artifacts)⟩)
      hfind1
  have hfind2 : findRepo (generatemetadata (generatemetadata ns R).1 R).1 R =
      some (Repo.static ⟨s.artifacts, some (buildMetadata s.artifacts)⟩) := by
    rw [hgen2]
    exact findRepo_updateRepo_self hfind1 _
  refine ⟨by rw [hgen1], hmd1, by rw [hgen2], ?_, ?_⟩
  · rw [hmd1]
    simp [httpGetRepomd, hfind2]
  · intro ns' R' s' hf' harts
    have hfind' : findRepo (generatemetadata ns' R').1 R' =
        some (Repo.static ⟨s'.artifacts, some (buildMetadata s'.artifacts)⟩) := by
      simp only [generatemetadata, hf']
      exact findRepo_updateRepo_self hf' _
    rw [hmd1]
    simp [httpGetRepomd, hfind', harts]

/-- C8 witness: two consecutive generations at a concrete repository. -/
theorem claim_C8_witness :
    (generatemetadata (uploadto (create [] ("repo1")).1 ("repo1") samplePkg).1
        ("repo1")).2 = RepoResult.ok ∧
      httpGetRepomd (generatemetadata (generatemetadata
          (uploadto (create [] ("repo1")).1 ("repo1") samplePkg).1 ("repo1")).1
          ("repo1")).1 ("repo1") =
        httpGetRepomd (generatemetadata
          (uploadto (create [] ("repo1")).1 ("repo1") samplePkg).1 ("repo1")).1
          ("repo1") := by
  have h := claim_C8_generate_deterministic
    (uploadto (create [] ("repo1")).1 ("repo1") samplePkg).1 ("repo1")
    ⟨[(destinationPath ⟨"a", "1", "2", "x"⟩, samplePkg)], none⟩ (by decide)
  exact ⟨h.1, h.2.2.2.1⟩

/-- C6: deleting a virtual repository makes its root GET return 404 while
every other repository — in particular the static repository it linked to
and all its artifacts — is left byte-for-byte unchanged and fetchable. -/
theorem claim_C6_deletevirtual_frame (ns : RepoNamespace) (V S : String)
    (ls : List String) (s : StaticRepo)
    (hnd : (namesOf ns).Nodup)
    (hV : findRepo ns V = some (Repo.virt ls))
    (hS : findRepo ns S = some (Repo.static s)) :
    (deletevirtual ns V).2 = RepoResult.ok ∧
      httpGetVirtualRoot (deletevirtual ns V).1 V = 404 ∧
      findRepo (deletevirtual ns V).1 S = findRepo ns S ∧
      httpGetRepoRoot (deletevirtual ns V).1 S = 200 ∧
      (∀ p, httpGetArtifact (deletevirtual ns V).1 S p = httpGetArtifact ns S p) ∧
      (∀ m, m ≠ V → findRepo (deletevirtual ns V).1 m = findRepo ns m) := by
  have hSV : S ≠ V := by
    intro e
    rw [e, hV] at hS
    simp at hS
  have hdel : deletevirtual ns V = (removeRepo ns V, RepoResult.ok) := by
    simp [deletevirtual, hV]
  have hgone : findRepo (deletevirtual ns V).1 V = none := by
    rw [hdel]
    exact findRepo_removeRepo_self hnd
  have hframe : ∀ m, m ≠ V → findRepo (deletevirtual ns V).1 m = findRepo ns m := by
    intro m hm
    rw [hdel]
    exact findRepo_removeRepo_ne ns hm
  refine ⟨by rw [hdel], ?_, hframe S hSV, ?_, ?_, hframe⟩
  · simp [httpGetVirtualRoot, hgone]
  · simp [httpGetRepoRoot, hframe S hSV, hS]
  · intro p
    simp [httpGetArtifact, hframe S hSV]

/-- C6 witness: concrete virtual-over-static setup, then deletion. -/
theorem claim_C6_witness :
    (deletevirtual [(("v1"), Repo.virt [("s1")]),
        (("s1"), Repo.static ⟨[], none⟩)] ("v1")).2 = RepoResult.ok ∧
      httpGetVirtualRoot (deletevirtual [(("v1"), Repo.virt [("s1")]),
        (("s1"), Repo.static ⟨[], none⟩)] ("v1")).1 ("v1") = 404 ∧
      findRepo (deletevirtual [(("v1"), Repo.virt [("s1")]),
          (("s1"), Repo.static ⟨[], none⟩)] ("v1")).1 ("s1") =
        findRepo [(("v1"), Repo.virt [("s1")]),
          (("s1"), Repo.static ⟨[], none⟩)] ("s1") := by
  have h := claim_C6_deletevirtual_frame
    [(("v1"), Repo.virt [("s1")]), (("s1"), Repo.static ⟨[], none⟩)]
    ("v1") ("s1") [("s1")] ⟨[], none⟩ (by decide) (by decide) (by decide)
  exact ⟨h.1, h.2.1, h.2.2.1⟩

theorem linktostatic_new {ns : RepoNamespace} {v s : String} {st : StaticRepo}
    (hv : findRepo ns v = none) (hs : findRepo ns s = some (Repo.static st)) :
    linktostatic ns v s = ((v, Repo.virt [s]) :: ns, RepoResult.ok) := by
  have hne : v ≠ s := by
    intro e
    rw [e, hs] at hv
    simp at hv
  have hguard : wouldCycle ns v s = false := by
    unfold wouldCycle
    rw [Bool.or_eq_false_iff]
    exact ⟨decide_eq_false hne, reachableFuel_static_src hs _ _⟩
  simp [linktostatic, hs, hv, hguard]

theorem linktovirtual_new {ns : RepoNamespace} {v w : String} {lw : List String}
    (hv : findRepo ns v = none) (hw : findRepo ns w = some (Repo.virt lw))
    (hnt : ¬ Relation.TransGen (edge ns) w v) :
    linktovirtual ns v w = ((v, Repo.virt [w]) :: ns, RepoResult.ok) := by
  have hne : v ≠ w := by
    intro e
    rw [e, hw] at hv
    simp at hv
  have hfuel : reachableFuel ns (ns.length + 1) w v = false := by
    cases hr : reachableFuel ns (ns.length + 1) w v with
    | false => rfl
    | true => exact absurd (transGen_of_reachableFuel _ _ hr) hnt
  have hguard : wouldCycle ns v w = false := by
    unfold wouldCycle
    rw [Bool.or_eq_false_iff]
    exact ⟨decide_eq_false hne, hfuel⟩
  simp [linktovirtual, hw, hv, hguard]

/-- C10: the link operations implicitly create the linking virtual
repository when it does not yet exist — they succeed and install the single
link instead of failing with NotFound. -/
theorem claim_C10_link_creates_virtual (ns : RepoNamespace) (v : String)
    (hv : findRepo ns v = none) :
    (∀ s st, findRepo ns s = some (Repo.static st) →
        linktostatic ns v s = ((v, Repo.virt [s]) :: ns, RepoResult.ok)) ∧
      (∀ w lw, findRepo ns w = some (Repo.virt lw) →
        ¬ Relation.TransGen (edge ns) w v →
        linktovirtual ns v w = ((v, Repo.virt [w]) :: ns, RepoResult.ok)) :=
  ⟨fun _ _ hs => linktostatic_new hv hs, fun _ _ hw hnt => linktovirtual_new hv hw hnt⟩

/-- C10 witness: linking from a fresh name to a static and to a virtual
repository. -/
theorem claim_C10_witness :
    linktostatic [(("s1"), Repo.static ⟨[], none⟩)] ("v1") ("s1") =
        ((("v1"), Repo.virt [("s1")]) :: [(("s1"), Repo.static ⟨[], none⟩)],
         RepoResult.ok) ∧
      linktovirtual [(("w1"), Repo.virt [])] ("v1") ("w1") =
        ((("v1"), Repo.virt [("w1")]) :: [(("w1"), Repo.virt [])],
         RepoResult.ok) := by
  refine ⟨?_, ?_⟩
  · exact (claim_C10_link_creates_virtual [(("s1"), Repo.static ⟨[], none⟩)] ("v1")
      (by decide)).1 ("s1") ⟨[], none⟩ (by decide)
  · exact (claim_C10_link_creates_virtual [(("w1"), Repo.virt [])] ("v1")
      (by decide)).2 ("w1") []
      (by decide)
      (not_transGen_of_check (by decide))

theorem resolveIn_chain2 {ns : RepoNamespace} {V2 V1 S A : String} {s : StaticRepo}
    {b : Bytes} (fuel : Nat)
    (h2 : findRepo ns V2 = some (Repo.virt [V1]))
    (h1 : findRepo ns V1 = some (Repo.virt [S]))
    (hS : findRepo ns S = some (Repo.static s))
    (hA : findArtifact s.artifacts A = some b) :
    resolveIn ns (fuel + 3) V2 A = some (S, b) := by
  have e0 : resolveIn ns (fuel + 1) S A = some (S, b) := resolveIn_static_step fuel hS hA
  have e1 : resolveIn ns (fuel + 2) V1 A = some (S, b) := by
    show resolveIn ns (fuel + 1 + 1) V1 A = some (S, b)
    rw [resolveIn_virt_step (fuel + 1) h1]
    simp [List.findSome?_cons, e0]
  show resolveIn ns (fuel + 2 + 1) V2 A = some (S, b)
  rw [resolveIn_virt_step (fuel + 2) h2]
  simp [List.findSome?_cons, e1]

/-- C5: after linking virtual V1 to static S (holding artifact A) and
virtual V2 to V1, a fetch of A through V2 succeeds and returns exactly the
bytes of a direct fetch of A from S: resolution recurses through virtual
links preserving path and content. -/
theorem claim_C5_virtual_chaining (ns : RepoNamespace) (S V1 V2 A : String)
    (s : StaticRepo) (b : Bytes)
    (hS : findRepo ns S = some (Repo.static s))
    (hA : findArtifact s.artifacts A = some b)
    (hV1 : findRepo ns V1 = none)
    (hV2 : findRepo ns V2 = none)
    (hne : V1 ≠ V2) :
    (linktostatic ns V1 S).2 = RepoResult.ok ∧
      (linktovirtual (linktostatic ns V1 S).1 V2 V1).2 = RepoResult.ok ∧
      httpGetVirtualArtifact (linktovirtual (linktostatic ns V1 S).1 V2 V1).1 V2 A =
        some b ∧
      httpGetArtifact (linktovirtual (linktostatic ns V1 S).1 V2 V1).1 S A = some b ∧
      httpGetVirtualArtifact (linktovirtual (linktostatic ns V1 S).1 V2 V1).1 V2 A =
        httpGetArtifact (linktovirtual (linktostatic ns V1 S).1 V2 V1).1 S A := by
  have hSV1 : S ≠ V1 := by
    intro e
    rw [e, hV1] at hS
    simp at hS
  have hSV2 : S ≠ V2 := by
    intro e
    rw [e, hV2] at hS
    simp at hS
  have hlink1 : linktostatic ns V1 S = ((V1, Repo.virt [S]) :: ns, RepoResult.ok) :=
    linktostatic_new hV1 hS
  have hV1n : findRepo (linktostatic ns V1 S).1 V1 = some (Repo.virt [S]) := by
    rw [hlink1]
    exact findRepo_cons_self V1 (Repo.virt [S]) ns
  have hV2n : findRepo (linktostatic ns V1 S).1 V2 = none := by
    rw [hlink1, findRepo_cons_ne _ _ (fun e => hne e.symm)]
    exact hV2
  have hSn : findRepo (linktostatic ns V1 S).1 S = some (Repo.static s) := by
    rw [hlink1, findRepo_cons_ne _ _ hSV1]
    exact hS
  have hnt : ¬ Relation.TransGen (edge (linktostatic ns V1 S).1) V1 V2 := by
    intro h
    have hr := reachable_iff.mpr h
    have hfuel : ∀ fuel, reachableFuel (linktostatic ns V1 S).1 fuel V1 V2 = false := by
      intro fuel
      cases fuel with
      | zero => rfl
      | succ f =>
        simp [reachableFuel, linkTargets_of_virt hV1n, hSV2,
          reachableFuel_static_src hSn]
    rw [hfuel] at hr
    cases hr
  have hlink2 : linktovirtual (linktostatic ns V1 S).1 V2 V1 =
      ((V2, Repo.virt [V1]) :: (linktostatic ns V1 S).1, RepoResult.ok) :=
    linktovirtual_new hV2n hV1n hnt
  have hV2nn : findRepo (linktovirtual (linktostatic ns V1 S).1 V2 V1).1 V2 =
      some (Repo.virt [V1]) := by
    rw [hlink2]
    exact findRepo_cons_self V2 (Repo.virt [V1]) _
  have hV1nn : findRepo (linktovirtual (linktostatic ns V1 S).1 V2 V1).1 V1 =
      some (Repo.virt [S]) := by
    rw [hlink2, findRepo_cons_ne _ _ hne]
    exact hV1n
  have hSnn : findRepo (linktovirtual (linktostatic ns V1 S).1 V2 V1).1 S =
      some (Repo.static s) := by
    rw [hlink2, findRepo_cons_ne _ _ hSV2]
    exact hSn
  have hres : resolve (linktovirtual (linktostatic ns V1 S).1 V2 V1).1 V2 A =
      some (S, b) := by
    have hV2r : findRepo ((V2, Repo.virt [V1]) :: (V1, Repo.virt [S]) :: ns) V2 =
        some (Repo.virt [V1]) := findRepo_cons_self V2 _ _
    have hV1r : findRepo ((V2, Repo.virt [V1]) :: (V1, Repo.virt [S]) :: ns) V1 =
        some (Repo.virt [S]) := by
      rw [findRepo_cons_ne _ _ hne]
      exact findRepo_cons_self V1 _ _
    have hSr : findRepo ((V2, Repo.virt [V1]) :: (V1, Repo.virt [S]) :: ns) S =
        some (Repo.static s) := by
      rw [findRepo_cons_ne _ _ hSV2, findRepo_cons_ne _ _ hSV1]
      exact hS
    unfold resolve
    rw [hlink2, hlink1]
    show resolveIn ((V2, Repo.virt [V1]) :: (V1, Repo.virt [S]) :: ns)
      (ns.length + 3) V2 A = some (S, b)
    exact resolveIn_chain2 ns.length hV2r hV1r hSr hA
  have hvirtget : httpGetVirtualArtifact
      (linktovirtual (linktostatic ns V1 S).1 V2 V1).1 V2 A = some b := by
    simp [httpGetVirtualArtifact, hV2nn, hres]
  have hdirget : httpGetArtifact
      (linktovirtual (linktostatic ns V1 S).1 V2 V1).1 S A = some b := by
    simp [httpGetArtifact, hSnn, hA]
  exact ⟨by rw [hlink1], by rw [hlink2], hvirtget, hdirget, by rw [hvirtget, hdirget]⟩

/-- C5 witness: a concrete two-level virtual chain over one static repo. -/
theorem claim_C5_witness :
    httpGetVirtualArtifact
        (linktovirtual (linktostatic [(("s1"), Repo.static ⟨[(("p"), [5, 6])], none⟩)]
          ("v1") ("s1")).1 ("v2") ("v1")).1 ("v2") ("p") = some [5, 6] ∧
      httpGetArtifact
        (linktovirtual (linktostatic [(("s1"), Repo.static ⟨[(("p"), [5, 6])], none⟩)]
          ("v1") ("s1")).1 ("v2") ("v1")).1 ("s1") ("p") = some [5, 6] := by
  have h := claim_C5_virtual_chaining [(("s1"), Repo.static ⟨[(("p"), [5, 6])], none⟩)]
    ("s1") ("v1") ("v2") ("p") ⟨[(("p"), [5, 6])], none⟩ [5, 6]
    (by decide) (by decide) (by decide) (by decide) (by decide)
  exact ⟨h.2.2.1, h.2.2.2.1⟩

/-- Modelled from the spec: the depth-first enumeration underlying
`listResolved` — the artifacts of every repository in the transitive link
set, visited in declared link order, front-to-back, depth-first (§4.3). -/
def listResolvedIn (ns : RepoNamespace) : Nat → String → List (String × Bytes)
  | 0, _ => []
  | fuel + 1, repo =>
    match findRepo ns repo with
    | some (Repo.static s) => s.artifacts
    | some (Repo.virt links) =>
      links.foldr (fun l acc => listResolvedIn ns fuel l ++ acc) []
    | none => []

/-- Drop every artifact whose path already occurred earlier in the list, so
that on a path collision the earlier (higher-precedence) entry wins. -/
def dedupByPathAux : List String → List (String × Bytes) → List (String × Bytes)
  | _, [] => []
  | seen, (p, b) :: rest =>
    if p ∈ seen then dedupByPathAux seen rest
    else (p, b) :: dedupByPathAux (p :: seen) rest

/-- Keep only the first entry for each path. -/
def dedupByPath (l : List (String × Bytes)) : List (String × Bytes) :=
  dedupByPathAux [] l

/-- Modelled from the spec: `listResolved(virtualRepoName)` — the merged
set of artifacts of the transitive link set, name collisions resolved by
link order, the earlier link in the sequence winning (§4.3). -/
def listResolved (ns : RepoNamespace) (name : String) : List (String × Bytes) :=
  dedupByPath (listResolvedIn ns (ns.length + 1) name)

theorem findArtifact_append (l1 l2 : List (String × Bytes)) (q : String) :
    findArtifact (l1 ++ l2) q =
      match findArtifact l1 q with
      | some b => some b
      | none => findArtifact l2 q := by
  induction l1 with
  | nil => rfl
  | cons hd tl ih =>
    obtain ⟨p, b⟩ := hd
    by_cases hq : q = p
    · simp [findArtifact, hq]
    · simp only [List.cons_append, findArtifact, if_neg hq]
      exact ih

theorem findArtifact_dedupAux_notSeen :
    ∀ (l : List (String × Bytes)) (seen : List String) (q : String), q ∉ seen →
      findArtifact (dedupByPathAux seen l) q = findArtifact l q := by
  intro l
  induction l with
  | nil => intro seen q hq; rfl
  | cons hd rest ih =>
    intro seen q hq
    obtain ⟨p, b⟩ := hd
    by_cases hp : p ∈ seen
    · have hqp : ¬ q = p := fun e => hq (e ▸ hp)
      simp only [dedupByPathAux, if_pos hp, findArtifact, if_neg hqp]
      exact ih seen q hq
    · simp only [dedupByPathAux, if_neg hp]
      by_cases hqp : q = p
      · simp [findArtifact, hqp]
      · simp only [findArtifact, if_neg hqp]
        have hq' : q ∉ p :: seen := by
          intro hmem
          rcases List.mem_cons.mp hmem with e | e
          · exact hqp e
          · exact hq e
        exact ih (p :: seen) q hq'

theorem findArtifact_dedupAux_seen :
    ∀ (l : List (String × Bytes)) (seen : List String) (q : String), q ∈ seen →
      findArtifact (dedupByPathAux seen l) q = none := by
  intro l
  induction l with
  | nil => intro seen q hq; rfl
  | cons hd rest ih =>
    intro seen q hq
    obtain ⟨p, b⟩ := hd
    by_cases hp : p ∈ seen
    · simp only [dedupByPathAux, if_pos hp]
      exact ih seen q hq
    · have hqp : ¬ q = p := fun e => hp (e ▸ hq)
      simp only [dedupByPathAux, if_neg hp, findArtifact, if_neg hqp]
      exact ih (p :: seen) q (List.mem_cons_of_mem _ hq)

theorem findArtifact_dedupByPath (l : List (String × Bytes)) (q : String) :
    findArtifact (dedupByPath l) q = findArtifact l q :=
  findArtifact_dedupAux_notSeen l [] q (by simp)

theorem dedupAux_paths_nodup :
    ∀ (l : List (String × Bytes)) (seen : List String),
      ((dedupByPathAux seen l).map Prod.fst).Nodup ∧
        ∀ q ∈ (dedupByPathAux seen l).map Prod.fst, q ∉ seen := by
  intro l
  induction l with
  | nil => intro seen; exact ⟨List.nodup_nil, by simp [dedupByPathAux]⟩
  | cons hd rest ih =>
    intro seen
    obtain ⟨p, b⟩ := hd
    by_cases hp : p ∈ seen
    · simp only [dedupByPathAux, if_pos hp]
      exact ih seen
    · simp only [dedupByPathAux, if_neg hp, List.map_cons]
      obtain ⟨ihn, ihs⟩ := ih (p :: seen)
      constructor
      · refine List.nodup_cons.mpr ⟨?_, ihn⟩
        intro hmem
        exact ihs p hmem (List.mem_cons_self _ _)
      · intro q hq
        rcases List.mem_cons.mp hq with e | e
        · exact e ▸ hp
        · intro hqs
          exact ihs q e (List.mem_cons_of_mem _ hqs)

theorem dedupByPath_paths_nodup (l : List (String × Bytes)) :
    ((dedupByPath l).map Prod.fst).Nodup :=
  (dedupAux_paths_nodup l []).1

theorem findArtifact_foldr_links {ns : RepoNamespace} {fuel : Nat} {p : String}
    (ih : ∀ (l : String), findArtifact (listResolvedIn ns fuel l) p =
      (resolveIn ns fuel l p).map (fun r => r.2)) :
    ∀ links : List String,
      findArtifact (links.foldr (fun l acc => listResolvedIn ns fuel l ++ acc) []) p =
        (links.findSome? (fun l => resolveIn ns fuel l p)).map (fun r => r.2) := by
  intro links
  induction links with
  | nil => rfl
  | cons l ls ihl =>
    rw [List.foldr_cons, findArtifact_append, ih l]
    cases hr : resolveIn ns fuel l p with
    | some r0 => simp [List.findSome?_cons, hr]
    | none => simpa [List.findSome?_cons, hr] using ihl

/-- For every path, the depth-first enumeration's first entry at that path
is exactly what the depth-first resolver returns. -/
theorem findArtifact_listResolvedIn {ns : RepoNamespace} :
    ∀ (fuel : Nat) (v p : String),
      findArtifact (listResolvedIn ns fuel v) p =
        (resolveIn ns fuel v p).map (fun r => r.2) := by
  intro fuel
  induction fuel with
  | zero => intro v p; rfl
  | succ fuel ih =>
    intro v p
    simp only [listResolvedIn, resolveIn]
    cases hf : findRepo ns v with
    | none => rfl
    | some r =>
      cases r with
      | static s =>
        cases ha : findArtifact s.artifacts p <;> simp [ha]
      | virt links =>
        exact findArtifact_foldr_links (fun l => ih l p) links

/-- C9: resolution through a virtual repository is depth-first over the link
list in declared order, the earlier link winning on path collisions; a
successful resolution returns exactly an artifact stored by a static
repository in the transitive link set, and when no repository in the
transitive link set holds the path the result is not-found.  The merged
listing listResolved agrees: for every path it carries exactly the artifact
the depth-first resolver returns (so the earlier link wins on collisions),
it lists each path at most once, and it has no entry at a path no
repository of the transitive link set holds. -/
theorem claim_C9_resolver_contract (ns : RepoNamespace) :
    (∀ fuel v path links, findRepo ns v = some (Repo.virt links) →
      resolveIn ns (fuel + 1) v path =
        links.findSome? (fun l => resolveIn ns fuel l path)) ∧
      (∀ fuel v path l rest r, findRepo ns v = some (Repo.virt (l :: rest)) →
        resolveIn ns fuel l path = some r →
        resolveIn ns (fuel + 1) v path = some r) ∧
      (∀ fuel v path l rest, findRepo ns v = some (Repo.virt (l :: rest)) →
        resolveIn ns fuel l path = none →
        resolveIn ns (fuel + 1) v path =
          rest.findSome? (fun t => resolveIn ns fuel t path)) ∧
      (∀ v path owner b, resolve ns v path = some (owner, b) →
        (owner = v ∨ Relation.TransGen (edge ns) v owner) ∧
          ∃ s, findRepo ns owner = some (Repo.static s) ∧
            findArtifact s.artifacts path = some b) ∧
      (∀ v path,
        (∀ r, (r = v ∨ Relation.TransGen (edge ns) v r) →
          ∀ s, findRepo ns r = some (Repo.static s) →
            findArtifact s.artifacts path = none) →
        resolve ns v path = none) ∧
      (∀ v path, findArtifact (listResolved ns v) path =
        (resolve ns v path).map (fun r => r.2)) ∧
      (∀ v, ((listResolved ns v).map Prod.fst).Nodup) ∧
      (∀ v path,
        (∀ r, (r = v ∨ Relation.TransGen (edge ns) v r) →
          ∀ s, findRepo ns r = some (Repo.static s) →
            findArtifact s.artifacts path = none) →
        findArtifact (listResolved ns v) path = none) := by
  have hnone : ∀ v path,
      (∀ r, (r = v ∨ Relation.TransGen (edge ns) v r) →
        ∀ s, findRepo ns r = some (Repo.static s) →
          findArtifact s.artifacts path = none) →
      resolve ns v path = none := by
    intro v path hn
    cases ho : resolve ns v path with
    | none => rfl
    | some r =>
      obtain ⟨owner, b⟩ := r
      obtain ⟨hreach, s, hs, hart⟩ := resolveIn_sound _ v owner b ho
      have h0 := hn owner hreach s hs
      rw [hart] at h0
      cases h0
  have hcorr : ∀ v path, findArtifact (listResolved ns v) path =
      (resolve ns v path).map (fun r => r.2) := by
    intro v path
    unfold listResolved resolve
    rw [findArtifact_dedupByPath]
    exact findArtifact_listResolvedIn _ v path
  refine ⟨?_, ?_, ?_, ?_, hnone, hcorr, ?_, ?_⟩
  · intro fuel v path links hv
    exact resolveIn_virt_step fuel hv
  · intro fuel v path l rest r hv hl
    rw [resolveIn_virt_step fuel hv]
    simp [List.findSome?_cons, hl]
  · intro fuel v path l rest hv hl
    rw [resolveIn_virt_step fuel hv]
    simp [List.findSome?_cons, hl]
  · intro v path owner b h
    exact resolveIn_sound _ v owner b h
  · intro v
    exact dedupByPath_paths_nodup _
  · intro v path h
    rw [hcorr v path, hnone v path h]
    rfl

/-- C9 witness: with two links both holding the path, the first-declared
link wins, both in per-path resolution and in the merged listing. -/
theorem claim_C9_witness :
    resolveIn [(("v"), Repo.virt [("s1"), ("s2")]),
        (("s1"), Repo.static ⟨[(("p"), [1])], none⟩),
        (("s2"), Repo.static ⟨[(("p"), [2])], none⟩)] 3 ("v") ("p") =
      some (("s1"), [1]) ∧
      findArtifact (listResolved [(("v"), Repo.virt [("s1"), ("s2")]),
        (("s1"), Repo.static ⟨[(("p"), [1])], none⟩),
        (("s2"), Repo.static ⟨[(("p"), [2])], none⟩)] ("v")) ("p") = some [1] := by
  refine ⟨(claim_C9_resolver_contract [(("v"), Repo.virt [("s1"), ("s2")]),
      (("s1"), Repo.static ⟨[(("p"), [1])], none⟩),
      (("s2"), Repo.static ⟨[(("p"), [2])], none⟩)]).2.1 2 ("v") ("p") ("s1")
    [("s2")] (("s1"), [1]) (by decide) (by decide), ?_⟩
  rw [(claim_C9_resolver_contract [(("v"), Repo.virt [("s1"), ("s2")]),
      (("s1"), Repo.static ⟨[(("p"), [1])], none⟩),
      (("s2"), Repo.static ⟨[(("p"), [2])], none⟩)]).2.2.2.2.2.1 ("v") ("p")]
  decide

/-- C7: any link request that would make a virtual repository link back to
itself, directly or transitively, fails with CycleDetected and leaves the
namespace exactly as it was; and every operation preserves acyclicity of
the link graph (together with uniqueness of repository names). -/
theorem claim_C7_cycle_rejection (ns : RepoNamespace)
    (hnd : (namesOf ns).Nodup) (hac : Acyclic ns) :
    (∀ v w lw, findRepo ns w = some (Repo.virt lw) →
      (findRepo ns v = none ∨ ∃ ls, findRepo ns v = some (Repo.virt ls)) →
      (v = w ∨ Relation.TransGen (edge ns) w v) →
      linktovirtual ns v w = (ns, RepoResult.cycleDetected)) ∧
      (∀ v w st, findRepo ns w = some (Repo.static st) →
        (findRepo ns v = none ∨ ∃ ls, findRepo ns v = some (Repo.virt ls)) →
        Relation.TransGen (edge ns) w v →
        linktostatic ns v w = (ns, RepoResult.cycleDetected)) ∧
      (∀ c : Command, (namesOf (applyCommand ns c).1).Nodup ∧
        Acyclic (applyCommand ns c).1) := by
  refine ⟨?_, ?_, fun c => inv_applyCommand ns hnd hac c⟩
  · intro v w lw hw hv hcyc
    have hguard : wouldCycle ns v w = true := wouldCycle_true_of hcyc
    rcases hv with hv | ⟨ls, hv⟩
    · simp [linktovirtual, hw, hv, hguard]
    · simp [linktovirtual, hw, hv, hguard]
  · intro v w st hw hv hcyc
    have hguard : wouldCycle ns v w = true := wouldCycle_true_of (Or.inr hcyc)
    rcases hv with hv | ⟨ls, hv⟩
    · simp [linktostatic, hw, hv, hguard]
    · simp [linktostatic, hw, hv, hguard]

/-- C7 witness: linking v2 back to v1 when v1 already links to v2 is
rejected with the namespace unchanged, and a subsequent command keeps the
link graph acyclic. -/
theorem claim_C7_witness :
    linktovirtual [(("v1"), Repo.virt [("v2")]), (("v2"), Repo.virt [])]
        ("v2") ("v1") =
      ([(("v1"), Repo.virt [("v2")]), (("v2"), Repo.virt [])],
       RepoResult.cycleDetected) ∧
      Acyclic (applyCommand [(("v1"), Repo.virt [("v2")]), (("v2"), Repo.virt [])]
        (Command.create ("x"))).1 := by
  have h := claim_C7_cycle_rejection
    [(("v1"), Repo.virt [("v2")]), (("v2"), Repo.virt [])]
    (by decide) (acyclic_of_check (by decide))
  refine ⟨?_, (h.2.2 (Command.create ("x"))).2⟩
  exact h.1 ("v2") ("v1") [("v2")] (by decide) (Or.inr ⟨[], by decide⟩)
    (Or.inr (Relation.TransGen.single
      (by decide : ("v2") ∈ linkTargets
        [(("v1"), Repo.virt [("v2")]), (("v2"), Repo.virt [])] ("v1"))))

end YumRepo
